import Mathlib

/-!
Verification development for the Brokkr.EventSystem dispatch core.

The embedding follows `src/include/EventManager.h` and `src/include/Hash.h`:

* `Event` carries the hashed type key (`GetType`) and the priority level
  (`GetPriorityLevel`); the `Event` class header itself is absent from the
  sources, so only these two accessors used by `EventManager` are modelled.
* `EventHandler` is `std::pair<int, std::function<void(const Event&)>>`;
  `priority` is the pair's `first`.  A `std::function`'s `target_type()`
  descriptor is modelled by `tag : Nat` (with `before` as `<` on `Nat`), and
  the actual callable value by `fnId : Nat` — the comparer reads only
  `priority` and `tag`, exactly as in the source.
* Callback side effects are modelled by an environment
  `env : Nat → Event → List Event` giving, for each callable value, the
  events that callback pushes onto the manager when invoked on an event.
* `std::set` with `EventHandlerComparer` is modelled as an ordered list with
  `setInsert` (no-op on an equivalent element) and erase-by-equivalence.
* `std::priority_queue` with `EventComparer` is modelled as a list from which
  `queueTopL` selects a maximal-priority element; ties are resolved to the
  earliest such element (the C++ container leaves ties unspecified).
* `ProcessEvents` mirrors the loop body order of the source: read `top()`,
  invoke the handlers (their pushes land in the queue), then `pop()` — the
  pop removes a maximal element of the queue as updated by those pushes.
-/

namespace Brokkr

/-- An event as seen by `EventManager`: its hashed type key (`GetType()`)
and its priority level (`GetPriorityLevel()`). -/
structure Event where
  key : Nat
  priority : Int
deriving DecidableEq, Repr

/-- `EventManager::EventHandler = std::pair<int, std::function<void(const Event&)>>`.
`tag` models the callback's `target_type()` runtime type descriptor and
`fnId` the callable value itself; only `priority` and `tag` are visible to
`EventHandlerComparer`. -/
structure EventHandler where
  priority : Int
  tag : Nat
  fnId : Nat
deriving DecidableEq, Repr

/-- `EventManager::EventHandlerComparer::operator()`: handlers with higher
priority come first; equal priorities are ordered by
`target_type().before(...)`, modelled as `<` on the tags. -/
def handlerLt (l r : EventHandler) : Bool :=
  if l.priority ≠ r.priority then decide (l.priority > r.priority)
  else decide (l.tag < r.tag)

/-- `std::set` element equivalence under `EventHandlerComparer`:
neither element orders before the other. -/
def handlerEquiv (l r : EventHandler) : Bool :=
  !handlerLt l r && !handlerLt r l

/-- Ordered insertion into the handler set: `std::set::insert` places the new
element at its comparer position and does nothing when an equivalent element
is already present. -/
def setInsert (h : EventHandler) : List EventHandler → List EventHandler
  | [] => [h]
  | x :: xs =>
    if handlerLt h x then h :: x :: xs
    else if handlerLt x h then x :: setInsert h xs
    else x :: xs

/-- The `m_handlers` map: event-type key to the ordered handler set.
`std::unordered_map` iteration order never matters to the claims, so an
association list suffices. -/
abbrev Registry := List (Nat × List EventHandler)

/-- `m_handlers[eventHash]` followed by an in-place update: the first entry
for the key is rewritten; a missing key is created from the empty set. -/
def updateKey (k : Nat) (f : List EventHandler → List EventHandler) :
    Registry → Registry
  | [] => [(k, f [])]
  | (k', hs) :: rest =>
    if k' = k then (k', f hs) :: rest else (k', hs) :: updateKey k f rest

/-- `RemoveHandler`'s body: `m_handlers.find(eventHash)`, and when found,
`handlers.erase(handler)` — erasing every element the comparer deems
equivalent to the argument.  An absent key leaves the map untouched. -/
def eraseInMap (k : Nat) (h : EventHandler) : Registry → Registry
  | [] => []
  | (k', hs) :: rest =>
    if k' = k then (k', hs.filter (fun x => !handlerEquiv x h)) :: rest
    else (k', hs) :: eraseInMap k h rest

/-- The handler set registered for a key (empty when the key is absent). -/
def handlersFor (reg : Registry) (k : Nat) : List EventHandler :=
  match reg.lookup k with
  | some hs => hs
  | none => []

/-- `EventManager`: the handler registry and the pending event queue. -/
structure EventManager where
  handlers : Registry
  eventQueue : List Event
deriving DecidableEq, Repr

/-- A newly constructed `EventManager`. -/
def emptyManager : EventManager := ⟨[], []⟩

/-- `EventManager::AddHandler(eventHash, handler)`:
`m_handlers[eventHash].insert(handler)`. -/
def addHandler (m : EventManager) (k : Nat) (h : EventHandler) : EventManager :=
  { m with handlers := updateKey k (setInsert h) m.handlers }

/-- `EventManager::RemoveHandler(eventHash, handler)`: erase the equivalent
element from the key's set when the key is present; otherwise a no-op. -/
def removeHandler (m : EventManager) (k : Nat) (h : EventHandler) : EventManager :=
  { m with handlers := eraseInMap k h m.handlers }

/-- `EventManager::PushEvent`: enqueue the event. -/
def pushEvent (m : EventManager) (e : Event) : EventManager :=
  { m with eventQueue := m.eventQueue ++ [e] }

/-- `m_eventQueue.top()` on the nonempty queue `e :: q`: a maximal-priority
element under `EventComparer` (`GetPriorityLevel() <`); ties resolve to the
earliest element, one legitimate instance of the container's unspecified
tie order. -/
def queueTop (e : Event) (q : List Event) : Event :=
  match q with
  | [] => e
  | x :: xs =>
    let t := queueTop x xs
    if t.priority > e.priority then t else e

/-- `top()` on a possibly empty queue. -/
def queueTopL : List Event → Option Event
  | [] => none
  | e :: q => some (queueTop e q)

/-- `m_eventQueue.pop()`: remove one maximal-priority element from the queue
in its current state. -/
def queuePop (q : List Event) : List Event :=
  match queueTopL q with
  | none => q
  | some t => q.erase t

/-- Invoking, in set order, every handler registered for an event: the list
of events those callbacks push, in invocation order.  `env` assigns each
callable value its pushing behaviour. -/
def dispatchPushes (env : Nat → Event → List Event) (hs : List EventHandler)
    (e : Event) : List Event :=
  hs.foldl (fun acc h => acc ++ env h.fnId e) []

/-- Outcome of running `ProcessEvents` with bounded fuel: the sequence of
dispatched events, the remaining queue, and whether the loop reached its
exit condition (`m_eventQueue.empty()`) within the fuel. -/
structure DrainResult where
  trace : List Event
  queue : List Event
  completed : Bool
deriving DecidableEq, Repr

/-- `EventManager::ProcessEvents`, fuel-bounded.  Each iteration follows the
loop body of the source in order: `event = top()`; every handler for
`event.GetType()` runs and its pushes join the queue; then `pop()` removes a
maximal element of the queue as it stands after those pushes. -/
def processEvents (env : Nat → Event → List Event) (reg : Registry) :
    Nat → List Event → DrainResult
  | 0, q => ⟨[], q, q.isEmpty⟩
  | fuel + 1, q =>
    match queueTopL q with
    | none => ⟨[], q, true⟩
    | some top =>
      let q1 := q ++ dispatchPushes env (handlersFor reg top.key) top
      let q2 := queuePop q1
      let r := processEvents env reg fuel q2
      ⟨top :: r.trace, r.queue, r.completed⟩

/-! ## Hash.h: Murmur3 32-bit one-shot hash

Bytes are `Nat`s below 256; 32-bit machine arithmetic is `Nat` arithmetic
reduced `% 2 ^ 32`.  The source reads 4-byte blocks through a
`uint32_t` pointer on a little-endian target, so a block assembles its
bytes least-significant first. -/

/-- `CIRCULAR_SHIFT_LEFT_32_BITS(x, r)` on a 32-bit value. -/
def rotl32 (x r : Nat) : Nat :=
  ((x <<< r) ||| (x >>> (32 - r))) % 2 ^ 32

/-- First Murmur3 block constant `kC1`. -/
def kC1 : Nat := 0xcc9e2d51

/-- Second Murmur3 block constant `kC2`. -/
def kC2 : Nat := 0x1b873593

/-- `Hash::FMix`: the avalanche finisher. -/
def fMix (hash : Nat) : Nat :=
  let h := hash ^^^ (hash >>> 16)
  let h := h * 0x85ebca6b % 2 ^ 32
  let h := h ^^^ (h >>> 13)
  let h := h * 0xc2b2ae35 % 2 ^ 32
  h ^^^ (h >>> 16)

/-- The per-block mixing of `k`: `k *= kC1; k = rotl(k, 15); k *= kC2`. -/
def mixK (k : Nat) : Nat :=
  rotl32 (k * kC1 % 2 ^ 32) 15 * kC2 % 2 ^ 32

/-- One iteration of the block loop body acting on the running hash. -/
def blockStep (hash k : Nat) : Nat :=
  (rotl32 (hash ^^^ mixK k) 13 * 5 + 0xe6546b64) % 2 ^ 32

/-- The full 4-byte little-endian blocks of the input, as 32-bit words:
what the loop over `blocks[-nblocks] .. blocks[-1]` reads, in order. -/
def toBlocks : List Nat → List Nat
  | b0 :: b1 :: b2 :: b3 :: rest =>
    (b0 + b1 * 2 ^ 8 + b2 * 2 ^ 16 + b3 * 2 ^ 24) % 2 ^ 32 :: toBlocks rest
  | _ => []

/-- The 0–3 bytes after the last full block (`data + nblocks * 4`). -/
def tailBytes : List Nat → List Nat
  | _ :: _ :: _ :: _ :: rest => tailBytes rest
  | l => l

/-- The `switch (len & 3)` fall-through: `k ^= tail[2] << 16`,
`k ^= tail[1] << 8`, `k ^= tail[0]`, over however many tail bytes exist. -/
def tailK : List Nat → Nat
  | [b0] => b0
  | [b0, b1] => (b1 <<< 8) ^^^ b0
  | [b0, b1, b2] => ((b2 <<< 16) ^^^ (b1 <<< 8)) ^^^ b0
  | _ => 0

/-- `Hash::Murmur3Hash(key, len, seed)` over the byte list `data`:
block loop, tail mixing (which skips the `* 5 + const` block finalization),
xor with the total length, then `FMix`. -/
def Murmur3Hash (data : List Nat) (seed : Nat) : Nat :=
  let body := (toBlocks data).foldl blockStep (seed % 2 ^ 32)
  let tl := tailBytes data
  let withTail := if tl.isEmpty then body else body ^^^ mixK (tailK tl)
  fMix (withTail ^^^ data.length % 2 ^ 32)

/-- Modelled from the spec: §4.1 reads the input as a sequence of chunks —
full 4-byte little-endian blocks followed by one chunk of the 0–3 remaining
tail bytes (omitted when empty). -/
def specChunks : List Nat → List (List Nat)
  | b0 :: b1 :: b2 :: b3 :: rest => [b0, b1, b2, b3] :: specChunks rest
  | [] => []
  | tl => [tl]

/-- Modelled from the spec: a chunk accumulated into a partial word
little-endian — each later byte shifted 8 bits further left, folded with
xor. -/
def specWord (chunk : List Nat) : Nat :=
  chunk.foldr (fun b w => (w <<< 8) ^^^ b) 0

/-- Modelled from the spec: §4.1's per-chunk action on the running hash — a
full block gets the multiply/rotate/multiply mixing, the xor into the hash,
and the block finalization (`rotl13`, `* 5 + 0xe6546b64`); the tail chunk
gets "the same multiply/rotate/multiply mixing" and the xor, but not the
block finalization. -/
def specStep (hash : Nat) (chunk : List Nat) : Nat :=
  if chunk.length = 4 then blockStep hash (specWord chunk % 2 ^ 32)
  else hash ^^^ mixK (specWord chunk % 2 ^ 32)

/-- Modelled from the spec: §4.1's `hash(bytes, seed)` — the chunk pass over
the input, finalized by the length xor and the avalanche finisher. -/
def murmur3Spec (data : List Nat) (seed : Nat) : Nat :=
  fMix ((specChunks data).foldl specStep (seed % 2 ^ 32) ^^^ data.length % 2 ^ 32)

/-- The UTF-8/ASCII bytes of an event-type name, as fed to
`HashEventString`. -/
def strBytes (s : String) : List Nat :=
  s.data.map Char.toNat

/-! ## Event payload components -/

/-- `PayloadTest::ToString` from the payload component header. -/
def payloadTestToString : String := "Event Payload Test\n"

/-- Modelled from the spec: `Event.h` (the `Event` class with
`AddComponent<T>` / `GetComponent<T>` and its payload slot map) is not among
the sources; §4.3 specifies a per-event type-keyed slot map holding at most
one component instance per concrete payload type.  A concrete type is a
`Nat` key and a stored instance a `Nat` value. -/
structure PayloadEvent where
  payloads : List (Nat × Nat)
deriving DecidableEq, Repr

/-- Modelled from the spec: `addComponent<T>(ctorArgs...) -> bool` "fails
(`false`, no mutation) if a `T` is already attached; succeeds (`true`)
otherwise", attaching the constructed instance. -/
def addComponent (t v : Nat) (e : PayloadEvent) : Bool × PayloadEvent :=
  if (e.payloads.lookup t).isSome then (false, e)
  else (true, ⟨e.payloads ++ [(t, v)]⟩)

/-- Modelled from the spec: `getComponent<T>() -> optional<reference to T>`
"returns the attached instance or an absent value if none exists". -/
def getComponent (t : Nat) (e : PayloadEvent) : Option Nat :=
  e.payloads.lookup t

/-! ## Registry-shaping operations and concrete scenario data -/

/-- A registry-shaping call made by a caller: `AddHandler` or
`RemoveHandler` with a key and a handler. -/
inductive RegOp where
  | add (k : Nat) (h : EventHandler)
  | rem (k : Nat) (h : EventHandler)
deriving DecidableEq, Repr

/-- Run one registry-shaping call on a manager. -/
def applyOp (m : EventManager) : RegOp → EventManager
  | .add k h => addHandler m k h
  | .rem k h => removeHandler m k h

/-- Run a sequence of registry-shaping calls; every reachable registry state
arises this way from a fresh manager. -/
def applyOps (ops : List RegOp) (m : EventManager) : EventManager :=
  ops.foldl applyOp m

/-- A callback environment in which no callback pushes events. -/
def envNil : Nat → Event → List Event := fun _ _ => []

/-- Callback environment for the re-entrant push scenario: callable value 7
pushes one event of key 2 and priority 10; every other callable pushes
nothing. -/
def envBug : Nat → Event → List Event :=
  fun i _ => if i = 7 then [⟨2, 10⟩] else []

/-- Registry for the re-entrant push scenario: key 1 has a single handler
whose callable value is 7. -/
def regBug : Registry := [(1, [⟨0, 0, 7⟩])]

/-- The hash key of the event name `"PlayerDied"`. -/
def kPlayerDied : Nat := Murmur3Hash (strBytes "PlayerDied") 0

/-- The hash key of the event name `"PlayerMoved"`. -/
def kPlayerMoved : Nat := Murmur3Hash (strBytes "PlayerMoved") 0

/-- A one-handler manager used to instantiate the removal-precision
statement: key 1 holds a handler of priority 5 and tag 3. -/
def removeDemoManager : EventManager := addHandler emptyManager 1 ⟨5, 3, 3⟩

/-- Callback environment in which callable value 9 pushes one event of key 2
and priority 1, exercising a re-entrant push that still lets the drain
finish. -/
def envPushLow : Nat → Event → List Event :=
  fun i _ => if i = 9 then [⟨2, 1⟩] else []

/-- Registry pairing with `envPushLow`: key 1 has one handler whose callable
value is 9. -/
def regPush : Registry := [(1, [⟨0, 0, 9⟩])]

/-! ## Properties of the handler order -/

theorem handlerLt_iff (a b : EventHandler) :
    handlerLt a b = true ↔
      b.priority < a.priority ∨ (a.priority = b.priority ∧ a.tag < b.tag) := by
  unfold handlerLt
  by_cases h : a.priority = b.priority <;> simp [h]

theorem handlerLt_eq_false_iff (a b : EventHandler) :
    handlerLt a b = false ↔
      ¬(b.priority < a.priority ∨ (a.priority = b.priority ∧ a.tag < b.tag)) := by
  rw [← handlerLt_iff]
  cases handlerLt a b <;> simp

theorem handlerLt_irrefl (a : EventHandler) : handlerLt a a = false := by
  rw [handlerLt_eq_false_iff]
  omega

theorem handlerLt_trans {a b c : EventHandler} (h1 : handlerLt a b = true)
    (h2 : handlerLt b c = true) : handlerLt a c = true := by
  rw [handlerLt_iff] at h1 h2 ⊢
  omega

theorem handlerEquiv_iff (a b : EventHandler) :
    handlerEquiv a b = true ↔ a.priority = b.priority ∧ a.tag = b.tag := by
  unfold handlerEquiv
  rw [Bool.and_eq_true, Bool.not_eq_true', Bool.not_eq_true',
    handlerLt_eq_false_iff, handlerLt_eq_false_iff]
  omega

theorem handlerEquiv_self (a : EventHandler) : handlerEquiv a a = true := by
  rw [handlerEquiv_iff]
  exact ⟨rfl, rfl⟩

theorem handlerEquiv_eq_false_of_lt {a b : EventHandler}
    (h : handlerLt a b = true) : handlerEquiv b a = false := by
  rw [handlerLt_iff] at h
  rw [← Bool.not_eq_true, handlerEquiv_iff]
  omega

theorem handlerLt_congr_left {a b : EventHandler} (hp : a.priority = b.priority)
    (ht : a.tag = b.tag) (c : EventHandler) : handlerLt a c = handlerLt b c := by
  unfold handlerLt
  rw [hp, ht]

/-! ## Properties of ordered-set insertion -/

theorem mem_setInsert (y h : EventHandler) :
    ∀ l : List EventHandler, y ∈ setInsert h l → y = h ∨ y ∈ l := by
  intro l
  induction l with
  | nil =>
    intro hy
    simp only [setInsert, List.mem_singleton] at hy
    exact Or.inl hy
  | cons x xs ih =>
    intro hy
    simp only [setInsert] at hy
    split at hy
    · rcases List.mem_cons.mp hy with rfl | hy
      · exact Or.inl rfl
      · exact Or.inr hy
    · split at hy
      · rcases List.mem_cons.mp hy with rfl | hy
        · exact Or.inr (List.mem_cons_self _ _)
        · rcases ih hy with rfl | hy
          · exact Or.inl rfl
          · exact Or.inr (List.mem_cons_of_mem _ hy)
      · exact Or.inr hy

theorem pairwise_setInsert (h : EventHandler) :
    ∀ l : List EventHandler, l.Pairwise (fun a b => handlerLt a b = true) →
      (setInsert h l).Pairwise (fun a b => handlerLt a b = true) := by
  intro l
  induction l with
  | nil =>
    intro _
    simp [setInsert]
  | cons x xs ih =>
    intro hp
    rcases List.pairwise_cons.mp hp with ⟨hx, hxs⟩
    simp only [setInsert]
    split
    · rename_i hhx
      refine List.pairwise_cons.mpr ⟨?_, hp⟩
      intro y hy
      rcases List.mem_cons.mp hy with rfl | hy
      · exact hhx
      · exact handlerLt_trans hhx (hx y hy)
    · split
      · rename_i hxh
        refine List.pairwise_cons.mpr ⟨?_, ih hxs⟩
        intro y hy
        rcases mem_setInsert y h xs hy with rfl | hy
        · exact hxh
        · exact hx y hy
      · exact hp

theorem setInsert_idem (h : EventHandler) :
    ∀ l : List EventHandler, setInsert h (setInsert h l) = setInsert h l := by
  intro l
  induction l with
  | nil => simp [setInsert, handlerLt_irrefl]
  | cons x xs ih =>
    simp only [setInsert]
    split
    · simp [setInsert, handlerLt_irrefl]
    · split
      · rename_i h1 h2
        simp only [setInsert, if_neg h1, if_pos h2, ih]
      · rename_i h1 h2
        simp only [setInsert, if_neg h1, if_neg h2]

theorem setInsert_eq_self_of_equivMem (h : EventHandler) :
    ∀ l : List EventHandler, l.Pairwise (fun a b => handlerLt a b = true) →
      ∀ x ∈ l, handlerEquiv x h = true → setInsert h l = l := by
  intro l
  induction l with
  | nil =>
    intro _ x hx
    cases hx
  | cons y ys ih =>
    intro hp x hx he
    rcases List.pairwise_cons.mp hp with ⟨hy, hys⟩
    rcases handlerEquiv_iff x h |>.mp he with ⟨hep, het⟩
    rcases List.mem_cons.mp hx with rfl | hx
    · have h1 : handlerLt h x = false := by
        rw [handlerLt_eq_false_iff]
        omega
      have h2 : handlerLt x h = false := by
        rw [handlerLt_eq_false_iff]
        omega
      simp [setInsert, h1, h2]
    · have hyx : handlerLt y x = true := hy x hx
      have h1 : handlerLt h y = false := by
        rw [handlerLt_eq_false_iff]
        rw [handlerLt_iff] at hyx
        omega
      simp only [setInsert, h1, Bool.false_eq_true, if_false]
      split
      · rw [ih hys x hx he]
      · rfl

theorem countP_setInsert (h : EventHandler) :
    ∀ l : List EventHandler, l.Pairwise (fun a b => handlerLt a b = true) →
      (setInsert h l).countP (fun x => handlerEquiv x h) = 1 := by
  intro l
  induction l with
  | nil =>
    intro _
    simp [setInsert, List.countP_cons, handlerEquiv_self]
  | cons x xs ih =>
    intro hp
    rcases List.pairwise_cons.mp hp with ⟨hx, hxs⟩
    simp only [setInsert]
    split
    · rename_i hhx
      have hzero : ∀ y ∈ x :: xs, ¬((fun z => handlerEquiv z h) y = true) := by
        intro y hy
        rcases List.mem_cons.mp hy with rfl | hy
        · simp [handlerEquiv_eq_false_of_lt hhx]
        · simp [handlerEquiv_eq_false_of_lt (handlerLt_trans hhx (hx y hy))]
      rw [List.countP_cons, List.countP_eq_zero.mpr hzero, handlerEquiv_self]
      simp
    · split
      · rename_i h1 h2
        have hxf : handlerEquiv x h = false := by
          unfold handlerEquiv
          rw [h2]
          rfl
        rw [List.countP_cons, ih hxs]
        simp [hxf]
      · rename_i h1 h2
        have hex : handlerEquiv x h = true := by
          unfold handlerEquiv
          rw [(by simpa using h2 : handlerLt x h = false),
            (by simpa using h1 : handlerLt h x = false)]
          rfl
        rcases (handlerEquiv_iff x h).mp hex with ⟨hep, het⟩
        have hzero : ∀ y ∈ xs, ¬((fun z => handlerEquiv z h) y = true) := by
          intro y hy
          have hly : handlerLt h y = true := by
            rw [← handlerLt_congr_left hep het y]
            exact hx y hy
          simp [handlerEquiv_eq_false_of_lt hly]
        rw [List.countP_cons, List.countP_eq_zero.mpr hzero]
        simp [hex]

/-! ## Properties of the registry map -/

theorem handlersFor_updateKey (k : Nat) (f : List EventHandler → List EventHandler)
    (k' : Nat) :
    ∀ reg : Registry, handlersFor (updateKey k f reg) k' =
      if k' = k then f (handlersFor reg k) else handlersFor reg k' := by
  intro reg
  induction reg with
  | nil =>
    by_cases h : k' = k
    · simp [updateKey, handlersFor, List.lookup, h]
    · have hb : (k' == k) = false := by simpa using h
      simp [updateKey, handlersFor, List.lookup, hb, h]
  | cons p rest ih =>
    obtain ⟨k'', hs⟩ := p
    simp only [updateKey]
    split
    · rename_i he
      subst he
      by_cases h : k' = k''
      · simp [handlersFor, List.lookup, h]
      · have hb : (k' == k'') = false := by simpa using h
        simp [handlersFor, List.lookup, hb, h]
    · rename_i he
      have hb2 : (k == k'') = false := by
        simp
        exact fun hc => he hc.symm
      by_cases h : k' = k''
      · subst h
        have hk : ¬k' = k := fun hc => he (hc ▸ rfl)
        simp only [handlersFor, List.lookup, beq_self_eq_true, if_neg hk]
      · have hb : (k' == k'') = false := by simpa using h
        simp only [handlersFor, List.lookup, hb, hb2] at ih ⊢
        exact ih

theorem handlersFor_eraseInMap (k : Nat) (h : EventHandler) (k' : Nat) :
    ∀ reg : Registry, handlersFor (eraseInMap k h reg) k' =
      if k' = k then (handlersFor reg k).filter (fun x => !handlerEquiv x h)
      else handlersFor reg k' := by
  intro reg
  induction reg with
  | nil =>
    by_cases hk : k' = k <;> simp [eraseInMap, handlersFor, List.lookup, hk]
  | cons p rest ih =>
    obtain ⟨k'', hs⟩ := p
    simp only [eraseInMap]
    split
    · rename_i he
      subst he
      by_cases hk : k' = k''
      · simp [handlersFor, List.lookup, hk]
      · have hb : (k' == k'') = false := by simpa using hk
        simp [handlersFor, List.lookup, hb, hk]
    · rename_i he
      have hb2 : (k == k'') = false := by
        simp
        exact fun hc => he hc.symm
      by_cases hk : k' = k''
      · subst hk
        have hne : ¬k' = k := fun hc => he (hc ▸ rfl)
        simp only [handlersFor, List.lookup, beq_self_eq_true, if_neg hne]
      · have hb : (k' == k'') = false := by simpa using hk
        simp only [handlersFor, List.lookup, hb, hb2] at ih ⊢
        exact ih

theorem eraseInMap_eq_self (k : Nat) (h : EventHandler) :
    ∀ reg : Registry, (∀ x ∈ handlersFor reg k, handlerEquiv x h = false) →
      eraseInMap k h reg = reg := by
  intro reg
  induction reg with
  | nil => intro _; rfl
  | cons p rest ih =>
    obtain ⟨k'', hs⟩ := p
    intro hno
    simp only [eraseInMap]
    split
    · rename_i he
      subst he
      have hall : ∀ x ∈ hs, (fun y => !handlerEquiv y h) x = true := by
        intro x hx
        have : handlerEquiv x h = false := by
          apply hno
          simpa [handlersFor, List.lookup] using hx
        simp [this]
      rw [List.filter_eq_self.mpr hall]
    · rename_i he
      have hb : (k == k'') = false := by
        simp
        exact fun hc => he hc.symm
      rw [ih ?_]
      intro x hx
      apply hno
      simpa [handlersFor, List.lookup, hb] using hx

theorem lookup_eq_of_handlersFor_mem {reg : Registry} {k : Nat} {x : EventHandler}
    (hx : x ∈ handlersFor reg k) : reg.lookup k = some (handlersFor reg k) := by
  cases h : reg.lookup k with
  | none => simp [handlersFor, h] at hx
  | some hs => simp [handlersFor, h]

theorem updateKey_eq_self (k : Nat) (f : List EventHandler → List EventHandler)
    (hs : List EventHandler) :
    ∀ reg : Registry, reg.lookup k = some hs → f hs = hs →
      updateKey k f reg = reg := by
  intro reg
  induction reg with
  | nil => intro hl; cases hl
  | cons p rest ih =>
    obtain ⟨k'', hs'⟩ := p
    intro hl hf
    simp only [updateKey]
    split
    · rename_i he
      subst he
      simp only [List.lookup, beq_self_eq_true] at hl
      cases hl
      rw [hf]
    · rename_i he
      have hb : (k == k'') = false := by
        simp
        exact fun hc => he hc.symm
      simp only [List.lookup, hb] at hl
      rw [ih hl hf]

theorem updateKey_updateKey (k : Nat)
    (f g : List EventHandler → List EventHandler) :
    ∀ reg : Registry, updateKey k f (updateKey k g reg) =
      updateKey k (fun hs => f (g hs)) reg := by
  intro reg
  induction reg with
  | nil => simp [updateKey]
  | cons p rest ih =>
    obtain ⟨k'', hs⟩ := p
    simp only [updateKey]
    split
    · rename_i he
      simp [updateKey, he]
    · rename_i he
      simp only [updateKey, if_neg he, ih]

theorem updateKey_congr (k : Nat) (f g : List EventHandler → List EventHandler)
    (hfg : ∀ hs, f hs = g hs) :
    ∀ reg : Registry, updateKey k f reg = updateKey k g reg := by
  intro reg
  induction reg with
  | nil => simp [updateKey, hfg]
  | cons p rest ih =>
    obtain ⟨k'', hs⟩ := p
    simp only [updateKey]
    split
    · rw [hfg]
    · rw [ih]

/-- Registries reachable through `AddHandler`/`RemoveHandler` calls keep
every per-key handler set ordered by the comparer. -/
theorem sorted_applyOps (ops : List RegOp) :
    ∀ m : EventManager,
      (∀ k, (handlersFor m.handlers k).Pairwise (fun a b => handlerLt a b = true)) →
      ∀ k, (handlersFor (applyOps ops m).handlers k).Pairwise
        (fun a b => handlerLt a b = true) := by
  induction ops with
  | nil => intro m hm; exact hm
  | cons op rest ih =>
    intro m hm
    refine ih (applyOp m op) ?_
    intro k'
    cases op with
    | add k h =>
      show (handlersFor (updateKey k (setInsert h) m.handlers) k').Pairwise _
      rw [handlersFor_updateKey]
      split
      · exact pairwise_setInsert h _ (by simpa using hm k)
      · exact hm k'
    | rem k h =>
      show (handlersFor (eraseInMap k h m.handlers) k').Pairwise _
      rw [handlersFor_eraseInMap]
      split
      · exact (hm k).filter _
      · exact hm k'

/-! ## Properties of the event queue -/

theorem queueTop_mem : ∀ (q : List Event) (e : Event), queueTop e q ∈ e :: q
  | [], e => by simp [queueTop]
  | x :: xs, e => by
    simp only [queueTop]
    split
    · exact List.mem_cons_of_mem e (queueTop_mem xs x)
    · exact List.mem_cons_self _ _

theorem queueTop_max : ∀ (q : List Event) (e : Event),
    ∀ y ∈ e :: q, y.priority ≤ (queueTop e q).priority
  | [], e => by
    intro y hy
    rcases List.mem_cons.mp hy with rfl | hy
    · simp [queueTop]
    · cases hy
  | x :: xs, e => by
    intro y hy
    have hrec := queueTop_max xs x
    simp only [queueTop]
    split
    · rename_i hgt
      rcases List.mem_cons.mp hy with rfl | hy
      · exact le_of_lt hgt
      · exact hrec y hy
    · rename_i hle
      rcases List.mem_cons.mp hy with rfl | hy
      · exact le_refl _
      · exact le_trans (hrec y hy) (not_lt.mp hle)

theorem queueTopL_max {q : List Event} {top : Event} (hq : queueTopL q = some top) :
    ∀ e ∈ q, e.priority ≤ top.priority := by
  cases q with
  | nil => cases hq
  | cons x xs =>
    simp only [queueTopL, Option.some.injEq] at hq
    subst hq
    exact fun e he => queueTop_max xs x e he

/-! ## Properties of the drain loop -/

theorem dispatchPushes_in_order (env : Nat → Event → List Event)
    (hs : List EventHandler) (e : Event) :
    dispatchPushes env hs e = (hs.map (fun h => env h.fnId e)).flatten := by
  unfold dispatchPushes
  suffices hgen : ∀ acc, hs.foldl (fun acc h => acc ++ env h.fnId e) acc =
      acc ++ (hs.map (fun h => env h.fnId e)).flatten by
    simpa using hgen []
  induction hs with
  | nil => intro acc; simp
  | cons x xs ih =>
    intro acc
    simp [ih, List.append_assoc]

/-! ## Equivalence of the hash implementation with its description -/

theorem shiftLeft_xor_eq_add : ∀ (k w b : Nat), b < 2 ^ k → (w <<< k) ^^^ b = w * 2 ^ k + b := by
  intro k
  induction k with
  | zero =>
    intro w b hb
    have hb0 : b = 0 := by omega
    subst hb0
    simp
  | succ k ih =>
    intro w b hb
    have hpow : (2 : Nat) ^ (k + 1) = 2 * 2 ^ k := by
      rw [Nat.pow_succ]
      omega
    rw [hpow] at hb
    have hdiv : ((w <<< (k + 1)) ^^^ b) / 2 = (w <<< k) ^^^ (b / 2) := by
      rw [Nat.xor_div_two]
      congr 1
      rw [Nat.shiftLeft_eq, Nat.shiftLeft_eq, hpow,
        show w * (2 * 2 ^ k) = 2 * (w * 2 ^ k) by ring]
      omega
    have hmod : ((w <<< (k + 1)) ^^^ b) % 2 = b % 2 := by
      rw [Nat.xor_mod_two_eq, Nat.shiftLeft_eq, hpow,
        show w * (2 * 2 ^ k) = 2 * (w * 2 ^ k) by ring]
      omega
    have hih := ih w (b / 2) (by omega)
    have hd := Nat.div_add_mod ((w <<< (k + 1)) ^^^ b) 2
    rw [hdiv, hih, hmod] at hd
    rw [← hd, hpow, show w * (2 * 2 ^ k) = 2 * (w * 2 ^ k) by ring]
    omega

theorem specWord_block {b0 b1 b2 b3 : Nat} (h0 : b0 < 2 ^ 8) (h1 : b1 < 2 ^ 8)
    (h2 : b2 < 2 ^ 8) :
    specWord [b0, b1, b2, b3] = b0 + b1 * 2 ^ 8 + b2 * 2 ^ 16 + b3 * 2 ^ 24 := by
  simp only [specWord, List.foldr, Nat.zero_shiftLeft, Nat.zero_xor]
  rw [shiftLeft_xor_eq_add 8 b3 b2 h2, shiftLeft_xor_eq_add 8 _ b1 h1,
    shiftLeft_xor_eq_add 8 _ b0 h0]
  ring

theorem specWord_tail1 {b0 : Nat} (h0 : b0 < 2 ^ 8) :
    specWord [b0] % 2 ^ 32 = tailK [b0] := by
  simp only [specWord, List.foldr, Nat.zero_shiftLeft, Nat.zero_xor, tailK]
  omega

theorem specWord_tail2 {b0 b1 : Nat} (h0 : b0 < 2 ^ 8) (h1 : b1 < 2 ^ 8) :
    specWord [b0, b1] % 2 ^ 32 = tailK [b0, b1] := by
  simp only [specWord, List.foldr, Nat.zero_shiftLeft, Nat.zero_xor, tailK]
  rw [shiftLeft_xor_eq_add 8 b1 b0 h0]
  omega

theorem specWord_tail3 {b0 b1 b2 : Nat} (h0 : b0 < 2 ^ 8) (h1 : b1 < 2 ^ 8)
    (h2 : b2 < 2 ^ 8) :
    specWord [b0, b1, b2] % 2 ^ 32 = tailK [b0, b1, b2] := by
  simp only [specWord, List.foldr, Nat.zero_shiftLeft, Nat.zero_xor, tailK]
  rw [shiftLeft_xor_eq_add 8 b2 b1 h1, shiftLeft_xor_eq_add 8 _ b0 h0,
    Nat.xor_assoc, shiftLeft_xor_eq_add 8 b1 b0 h0,
    shiftLeft_xor_eq_add 16 b2 _ (by omega)]
  omega

theorem specChunks_foldl_eq : ∀ (data : List Nat) (h : Nat), (∀ b ∈ data, b < 2 ^ 8) →
    (specChunks data).foldl specStep h =
      (if (tailBytes data).isEmpty then (toBlocks data).foldl blockStep h
       else (toBlocks data).foldl blockStep h ^^^ mixK (tailK (tailBytes data)))
  | b0 :: b1 :: b2 :: b3 :: rest, h, hb => by
    have h0 : b0 < 2 ^ 8 := hb b0 (by simp)
    have h1 : b1 < 2 ^ 8 := hb b1 (by simp)
    have h2 : b2 < 2 ^ 8 := hb b2 (by simp)
    have hrest : ∀ b ∈ rest, b < 2 ^ 8 := fun b hb' => hb b (by simp [hb'])
    have hstep : specStep h [b0, b1, b2, b3] =
        blockStep h ((b0 + b1 * 2 ^ 8 + b2 * 2 ^ 16 + b3 * 2 ^ 24) % 2 ^ 32) := by
      unfold specStep
      rw [if_pos (show ([b0, b1, b2, b3] : List Nat).length = 4 from rfl)]
      rw [specWord_block h0 h1 h2]
    simp only [specChunks, toBlocks, tailBytes]
    rw [List.foldl_cons, List.foldl_cons, hstep, specChunks_foldl_eq rest _ hrest]
  | [], h, hb => by
    simp [specChunks, toBlocks, tailBytes]
  | [b0], h, hb => by
    have h0 : b0 < 2 ^ 8 := hb b0 (by simp)
    have ht := specWord_tail1 h0
    norm_num at ht
    simp [specChunks, toBlocks, tailBytes, specStep, ht]
  | [b0, b1], h, hb => by
    have h0 : b0 < 2 ^ 8 := hb b0 (by simp)
    have h1 : b1 < 2 ^ 8 := hb b1 (by simp)
    have ht := specWord_tail2 h0 h1
    norm_num at ht
    simp [specChunks, toBlocks, tailBytes, specStep, ht]
  | [b0, b1, b2], h, hb => by
    have h0 : b0 < 2 ^ 8 := hb b0 (by simp)
    have h1 : b1 < 2 ^ 8 := hb b1 (by simp)
    have h2 : b2 < 2 ^ 8 := hb b2 (by simp)
    have ht := specWord_tail3 h0 h1 h2
    norm_num at ht
    simp [specChunks, toBlocks, tailBytes, specStep, ht]

theorem murmur3Spec_eq (data : List Nat) (seed : Nat)
    (hb : ∀ b ∈ data, b < 2 ^ 8) :
    murmur3Spec data seed = Murmur3Hash data seed := by
  simp only [murmur3Spec, Murmur3Hash, specChunks_foldl_eq data _ hb]

/-! ## Lookup over appended payload lists -/

theorem lookup_append_some {l1 l2 : List (Nat × Nat)} {t w : Nat}
    (h : l1.lookup t = some w) : (l1 ++ l2).lookup t = some w := by
  induction l1 with
  | nil => cases h
  | cons p rest ih =>
    obtain ⟨a, b⟩ := p
    simp only [List.cons_append, List.lookup] at h ⊢
    cases hb : (t == a) with
    | true => rw [hb] at h; exact h
    | false => rw [hb] at h; exact ih h

theorem lookup_append_none {l1 l2 : List (Nat × Nat)} {t : Nat}
    (h : l1.lookup t = none) : (l1 ++ l2).lookup t = l2.lookup t := by
  induction l1 with
  | nil => simp
  | cons p rest ih =>
    obtain ⟨a, b⟩ := p
    simp only [List.cons_append, List.lookup] at h ⊢
    cases hb : (t == a) with
    | true => rw [hb] at h; cases h
    | false => rw [hb] at h; exact ih h

/-! ## Claim theorems -/

/-- C1: the claim says no queued event instance is ever dispatched twice
within one `ProcessEvents` call, even when handlers push new events.  The
code violates this: with one queued event of key 1 and priority 5 whose
handler pushes an event of priority 10, `pop()` removes the handler-pushed
maximum instead of the event just dispatched, so the same queued instance
is dispatched again on the next iteration and the pushed event is never
dispatched at all. -/
theorem processEvents_double_dispatch :
    (processEvents envBug regBug 2 [⟨1, 5⟩]).trace = [⟨1, 5⟩, ⟨1, 5⟩]
    ∧ dispatchPushes envBug (handlersFor regBug 1) ⟨1, 5⟩ = [⟨2, 10⟩]
    ∧ (⟨2, 10⟩ : Event) ∉ (processEvents envBug regBug 2 [⟨1, 5⟩]).trace := by
  decide

/-- C2: whenever `ProcessEvents` returns (its loop reached the
`m_eventQueue.empty()` exit condition within the given fuel), the event
queue is empty — for every callback environment, so in particular events
pushed by handler callbacks during the same call are also drained. -/
theorem processEvents_empties_queue (env : Nat → Event → List Event)
    (reg : Registry) :
    ∀ (fuel : Nat) (q : List Event),
      (processEvents env reg fuel q).completed = true →
      (processEvents env reg fuel q).queue = [] := by
  intro fuel
  induction fuel with
  | zero =>
    intro q hc
    simp only [processEvents] at hc ⊢
    cases q with
    | nil => rfl
    | cons x xs => simp at hc
  | succ n ih =>
    intro q hc
    cases hq : queueTopL q with
    | none =>
      cases q with
      | nil => simp [processEvents, queueTopL]
      | cons e rest => simp [queueTopL] at hq
    | some top =>
      simp only [processEvents, hq] at hc ⊢
      exact ih _ hc

theorem processEvents_empties_queue_witness :
    (processEvents envPushLow regPush 3 [⟨1, 5⟩]).completed = true
    ∧ (processEvents envPushLow regPush 3 [⟨1, 5⟩]).queue = [] :=
  ⟨by decide, processEvents_empties_queue envPushLow regPush 3 [⟨1, 5⟩] (by decide)⟩

/-- C3: every registry state reachable through `AddHandler`/`RemoveHandler`
keeps each per-key handler set strictly ordered by priority descending with
equal priorities broken by the type-descriptor tiebreak ascending;
dispatch invokes the handlers in exactly that list order (the callback
effects concatenate in list order); and registering priorities 1, 5, 10 in
that order yields the invocation order 10, 5, 1. -/
theorem handlers_invoked_in_descending_priority :
    (∀ (ops : List RegOp) (k : Nat),
        (handlersFor (applyOps ops emptyManager).handlers k).Pairwise
          (fun a b => b.priority < a.priority ∨
            (a.priority = b.priority ∧ a.tag < b.tag)))
    ∧ (∀ (env : Nat → Event → List Event) (hs : List EventHandler) (e : Event),
        dispatchPushes env hs e = (hs.map (fun h => env h.fnId e)).flatten)
    ∧ handlersFor (applyOps [RegOp.add 1 ⟨1, 4, 4⟩, RegOp.add 1 ⟨5, 6, 6⟩,
        RegOp.add 1 ⟨10, 2, 2⟩] emptyManager).handlers 1 =
        [⟨10, 2, 2⟩, ⟨5, 6, 6⟩, ⟨1, 4, 4⟩] := by
  refine ⟨?_, dispatchPushes_in_order, by decide⟩
  intro ops k
  have hsort := sorted_applyOps ops emptyManager
    (fun k' => by simp [emptyManager, handlersFor, List.lookup]) k
  exact hsort.imp (fun hab => (handlerLt_iff _ _).mp hab)

/-- C4: every iteration of `ProcessEvents` dispatches an event whose
priority is maximal among the currently queued events (the dispatched event
heads the trace and dominates every queued priority), and pushing
`("PlayerDied", 10)` then `("PlayerMoved", 5)` and draining dispatches
"PlayerDied" before "PlayerMoved". -/
theorem dispatch_order_by_event_priority :
    (∀ (env : Nat → Event → List Event) (reg : Registry) (fuel : Nat)
        (q : List Event) (top : Event), queueTopL q = some top →
        (processEvents env reg (fuel + 1) q).trace.head? = some top
        ∧ ∀ e ∈ q, e.priority ≤ top.priority)
    ∧ (processEvents envNil [] 2 [⟨kPlayerDied, 10⟩, ⟨kPlayerMoved, 5⟩]).trace =
        [⟨kPlayerDied, 10⟩, ⟨kPlayerMoved, 5⟩] := by
  constructor
  · intro env reg fuel q top hq
    constructor
    · simp [processEvents, hq]
    · exact queueTopL_max hq
  · decide

theorem dispatch_order_by_event_priority_witness :
    (processEvents envNil [] 1 [⟨0, 3⟩]).trace.head? = some ⟨0, 3⟩
    ∧ (⟨0, 3⟩ : Event).priority ≤ (⟨0, 3⟩ : Event).priority :=
  have h := dispatch_order_by_event_priority.1 envNil [] 0 [⟨0, 3⟩] ⟨0, 3⟩ (by decide)
  ⟨h.1, h.2 ⟨0, 3⟩ (by decide)⟩

/-- C5: `Murmur3Hash` (a pure function of its byte list and seed, so
repeated calls agree by definition) coincides on every byte input with the
chunk-pass algorithm §4.1 describes — little-endian blocks mixed with
kC1/rotl15/kC2, xor, rotl13, times 5 plus 0xe6546b64, the 0–3 tail bytes
mixed without block finalization, then the length xor and the avalanche
finisher — and it reproduces the published Murmur3-32 reference vectors,
in particular hashing the empty input with seed 0 yields 0. -/
theorem murmur3Hash_implements_spec :
    (∀ (data : List Nat) (seed : Nat), (∀ b ∈ data, b < 2 ^ 8) →
        murmur3Spec data seed = Murmur3Hash data seed)
    ∧ Murmur3Hash [] 0 = 0
    ∧ Murmur3Hash (strBytes "test") 0 = 0xba6bd213
    ∧ Murmur3Hash (strBytes "Hello, world!") 1234 = 0xfaf6cdb3
    ∧ Murmur3Hash (strBytes "The quick brown fox jumps over the lazy dog")
        0x9747b28c = 0x2fa826cd :=
  ⟨murmur3Spec_eq, by decide, by decide, by decide, by decide⟩

theorem murmur3Hash_implements_spec_witness :
    murmur3Spec [1, 2, 3, 4, 5, 250] 7 = Murmur3Hash [1, 2, 3, 4, 5, 250] 7 :=
  murmur3Hash_implements_spec.1 [1, 2, 3, 4, 5, 250] 7 (by decide)

/-- C6: `RemoveHandler` never touches the event queue; on the target key it
erases exactly the handlers whose priority and type-descriptor identity
both match the argument; and when no registered handler matches exactly
(different priority, different identity, or an unregistered key) the whole
manager is left unchanged — so the registered handler is still present for
the next dispatch — and no error is raised. -/
theorem removeHandler_requires_exact_match :
    ∀ (m : EventManager) (k : Nat) (h : EventHandler),
      (removeHandler m k h).eventQueue = m.eventQueue
      ∧ handlersFor (removeHandler m k h).handlers k =
          (handlersFor m.handlers k).filter (fun x => !handlerEquiv x h)
      ∧ ((∀ x ∈ handlersFor m.handlers k, handlerEquiv x h = false) →
          removeHandler m k h = m) := by
  intro m k h
  refine ⟨rfl, ?_, ?_⟩
  · have he := handlersFor_eraseInMap k h k m.handlers
    simpa using he
  · intro hno
    show { m with handlers := eraseInMap k h m.handlers } = m
    rw [eraseInMap_eq_self k h m.handlers hno]

theorem removeHandler_requires_exact_match_witness :
    removeHandler removeDemoManager 1 ⟨4, 3, 3⟩ = removeDemoManager :=
  (removeHandler_requires_exact_match removeDemoManager 1 ⟨4, 3, 3⟩).2.2 (by decide)

/-- C7: adding a handler that compares exactly equal (same priority, same
type-descriptor identity) to one already registered is a no-op —
`AddHandler` twice with the same handler equals `AddHandler` once on any
manager — and after adding a handler to any reachable registry, exactly one
element of the key's invocation list is comparer-equal to it, so a dispatch
invokes it once, not twice. -/
theorem addHandler_duplicate_is_noop :
    (∀ (m : EventManager) (k : Nat) (h : EventHandler),
        addHandler (addHandler m k h) k h = addHandler m k h)
    ∧ (∀ (ops : List RegOp) (k : Nat) (h : EventHandler),
        (handlersFor (addHandler (applyOps ops emptyManager) k h).handlers k).countP
          (fun x => handlerEquiv x h) = 1) := by
  constructor
  · intro m k h
    show EventManager.mk
        (updateKey k (setInsert h) (updateKey k (setInsert h) m.handlers))
        m.eventQueue = _
    have h2 : updateKey k (fun hs => setInsert h (setInsert h hs)) m.handlers =
        updateKey k (setInsert h) m.handlers :=
      updateKey_congr k _ _ (fun hs => setInsert_idem h hs) m.handlers
    rw [updateKey_updateKey, h2]
    rfl
  · intro ops k h
    have hsort := sorted_applyOps ops emptyManager
      (fun k' => by simp [emptyManager, handlersFor, List.lookup]) k
    show (handlersFor
        (updateKey k (setInsert h) (applyOps ops emptyManager).handlers) k).countP _ = 1
    rw [handlersFor_updateKey, if_pos rfl]
    exact countP_setInsert h _ hsort

/-- C8: on any event, `addComponent<T>` succeeds exactly on the first call
for a type: when no `T` is attached it returns `true` and attaches the
instance; when a `T` is attached it returns `false` with no mutation; and
an attached instance survives every later `addComponent` call unchanged. -/
theorem addComponent_true_once :
    ∀ (e : PayloadEvent) (t v : Nat),
      (getComponent t e = none →
        (addComponent t v e).1 = true
        ∧ getComponent t (addComponent t v e).2 = some v)
      ∧ (∀ w, getComponent t e = some w → addComponent t v e = (false, e))
      ∧ (∀ w t' v', getComponent t e = some w →
          getComponent t (addComponent t' v' e).2 = some w) := by
  intro e t v
  refine ⟨?_, ?_, ?_⟩
  · intro hn
    unfold getComponent at hn
    unfold addComponent
    rw [if_neg (by simp [hn])]
    refine ⟨rfl, ?_⟩
    show (e.payloads ++ [(t, v)]).lookup t = some v
    rw [lookup_append_none hn]
    simp [List.lookup]
  · intro w hw
    unfold getComponent at hw
    unfold addComponent
    rw [if_pos (by simp [hw])]
  · intro w t' v' hw
    unfold getComponent at hw ⊢
    unfold addComponent
    split
    · exact hw
    · exact lookup_append_some hw

theorem addComponent_true_once_witness :
    (addComponent 3 42 ⟨[]⟩).1 = true
    ∧ getComponent 3 (addComponent 3 42 ⟨[]⟩).2 = some 42
    ∧ addComponent 3 7 (addComponent 3 42 ⟨[]⟩).2 = (false, (addComponent 3 42 ⟨[]⟩).2) := by
  have h1 := (addComponent_true_once ⟨[]⟩ 3 42).1 (by decide)
  exact ⟨h1.1, h1.2,
    (addComponent_true_once (addComponent 3 42 ⟨[]⟩).2 3 7).2.1 42 (by decide)⟩

/-- C9 counterexample: the test payload component's describe operation does
not return the string "Event Payload Test" — the source returns it with a
trailing newline. -/
theorem payloadTest_toString_ne_spec_string :
    payloadTestToString ≠ "Event Payload Test" := by
  decide

/-- C9 (amended): the test payload component's describe operation returns
the fixed string "Event Payload Test\n" — "Event Payload Test" followed by
a trailing newline — on every call. -/
theorem payloadTest_toString_fixed :
    payloadTestToString = "Event Payload Test\n" := rfl

/-- C10: in any reachable registry, a handler with equal priority and equal
callback type descriptor is the same set element regardless of the callback
value: adding such a second handler leaves the manager unchanged, and
removing with such a handler erases the originally registered one. -/
theorem handler_identity_is_priority_and_type :
    ∀ (ops : List RegOp) (k : Nat) (h1 h2 : EventHandler),
      h1.priority = h2.priority → h1.tag = h2.tag →
      h1 ∈ handlersFor (applyOps ops emptyManager).handlers k →
      addHandler (applyOps ops emptyManager) k h2 = applyOps ops emptyManager
      ∧ h1 ∉ handlersFor (removeHandler (applyOps ops emptyManager) k h2).handlers k := by
  intro ops k h1 h2 hp ht hmem
  have hsort := sorted_applyOps ops emptyManager
    (fun k' => by simp [emptyManager, handlersFor, List.lookup]) k
  have hequiv12 : handlerEquiv h1 h2 = true := (handlerEquiv_iff h1 h2).mpr ⟨hp, ht⟩
  constructor
  · show { applyOps ops emptyManager with
        handlers := updateKey k (setInsert h2) (applyOps ops emptyManager).handlers } = _
    rw [updateKey_eq_self k (setInsert h2)
      (handlersFor (applyOps ops emptyManager).handlers k)
      (applyOps ops emptyManager).handlers
      (lookup_eq_of_handlersFor_mem hmem)
      (setInsert_eq_self_of_equivMem h2 _ hsort h1 hmem hequiv12)]
  · intro hin
    have hin2 : h1 ∈ handlersFor
        (eraseInMap k h2 (applyOps ops emptyManager).handlers) k := hin
    rw [handlersFor_eraseInMap, if_pos rfl] at hin2
    rcases List.mem_filter.mp hin2 with ⟨_, hfalse⟩
    rw [hequiv12] at hfalse
    simp at hfalse

theorem handler_identity_is_priority_and_type_witness :
    addHandler (applyOps [RegOp.add 1 ⟨5, 3, 7⟩] emptyManager) 1 ⟨5, 3, 9⟩ =
      applyOps [RegOp.add 1 ⟨5, 3, 7⟩] emptyManager
    ∧ (⟨5, 3, 7⟩ : EventHandler) ∉ handlersFor
        (removeHandler (applyOps [RegOp.add 1 ⟨5, 3, 7⟩] emptyManager) 1 ⟨5, 3, 9⟩).handlers 1 :=
  handler_identity_is_priority_and_type [RegOp.add 1 ⟨5, 3, 7⟩] 1 ⟨5, 3, 7⟩ ⟨5, 3, 9⟩
    rfl rfl (by decide)

end Brokkr
